import Mathlib

/-!
Verification of the trade-log cleaning script (`clean_trade_log.py`).

The script loads the trades list, runs a sequential filter loop
(no-op filter, outlier filter, key-based deduplication), computes a
console report when the filtered list is non-empty, and writes back a
cleaned structure with metadata counts.

Numbers are modelled as rationals; the Python rounding `round(x, 4)` is modelled
by half-to-even rounding at four decimal places.  File I/O and the
timestamp fields (`cleaned_at`, the backup path) are ambient effects
outside the filtering/reporting logic and are not modelled.
-/

namespace CleanTradeLog

/-- One record of the trades list.  The fields `pair`, `entry`, `exit`
and `pnl` are accessed with mandatory indexing in the script; `reason`
is accessed both via a defaulted lookup (with default value unknown)
and via mandatory indexing, so it is modelled as optional. -/
structure TradeRecord where
  pair : String
  entry : ℚ
  exit : ℚ
  pnl : ℚ
  reason : Option String
deriving DecidableEq, Repr

/-- Python `abs(x)`. -/
def rabs (x : ℚ) : ℚ := if x < 0 then -x else x

/-- Python `round(x, 4)`: round half to even at four decimal places,
returning the scaled integer (the rounded value times `10^4`), which is
all the deduplication key compares.  Written on numerator and
denominator: with `y = x * 10^4`, `fl = ⌊y⌋` and `r` the numerator of
the fractional part `y - fl` over `y.den`, the fractional part is
below, above or exactly one half according as `2r` compares to
`y.den`, and ties go to the even neighbour. -/
def round4 (x : ℚ) : ℤ :=
  let y : ℚ := mkRat (x.num * 10000) x.den
  let fl : ℤ := y.floor
  let r : ℤ := y.num - fl * (y.den : ℤ)
  if 2 * r < (y.den : ℤ) then fl
  else if (y.den : ℤ) < 2 * r then fl + 1
  else if fl % 2 = 0 then fl else fl + 1

/-- The deduplication key of line 41: the tuple of pair, entry, exit
and the pnl rounded to 4 decimal places. -/
abbrev Key := String × ℚ × ℚ × ℤ

def keyOf (t : TradeRecord) : Key :=
  (t.pair, t.entry, t.exit, round4 t.pnl)

/-- The filter loop of lines 31–46: skip records with `entry == exit`,
skip records with `abs(pnl) > 50`, skip records whose key is in `seen`,
otherwise add the key to `seen` and keep the record. -/
def filterLoop : List TradeRecord → List Key → List TradeRecord
  | [], _ => []
  | t :: ts, seen =>
    if t.entry = t.exit then filterLoop ts seen
    else if rabs t.pnl > 50 then filterLoop ts seen
    else if keyOf t ∈ seen then filterLoop ts seen
    else t :: filterLoop ts (keyOf t :: seen)

/-- The list `valid_trades` after the loop, starting from an empty `seen` set. -/
def validTrades (trades : List TradeRecord) : List TradeRecord :=
  filterLoop trades []

/-- A record survives the no-op filter and the outlier filter. -/
def survives12 (t : TradeRecord) : Prop :=
  t.entry ≠ t.exit ∧ rabs t.pnl ≤ 50

instance (t : TradeRecord) : Decidable (survives12 t) := by
  unfold survives12; infer_instance

/-- The deduplication pass of the spec, written from its words: scanning in
order, a record is discarded exactly when its key has already occurred
on an earlier (surviving) record; `seen` accumulates the key of every
scanned record. -/
def specDedupAux : List TradeRecord → List Key → List TradeRecord
  | [], _ => []
  | t :: ts, seen =>
    if keyOf t ∈ seen then specDedupAux ts (keyOf t :: seen)
    else t :: specDedupAux ts (keyOf t :: seen)

def specDedup (l : List TradeRecord) : List TradeRecord :=
  specDedupAux l []

/-- The `cleaned_data` dictionary of lines 71–79, minus the
`cleaned_at` timestamp. -/
structure CleanedData where
  version : String
  total_trades : ℕ
  original_count : ℕ
  removed_fake_trades : ℕ
  removed_outliers : ℕ
  trades : List TradeRecord
deriving DecidableEq, Repr

def cleanedData (trades : List TradeRecord) : CleanedData :=
  { version := "2.0-cleaned"
    total_trades := (validTrades trades).length
    original_count := trades.length
    removed_fake_trades :=
      (trades.filter (fun t => decide (t.entry = t.exit))).length
    removed_outliers :=
      (trades.filter (fun t => decide (t.entry ≠ t.exit ∧ rabs t.pnl > 50))).length
    trades := validTrades trades }

/-- Records dropped by the deduplication step alone: survivors of
filters 1–2 that did not make it into `valid_trades`. -/
def dedupDropped (trades : List TradeRecord) : ℕ :=
  (trades.filter (fun t => decide (survives12 t))).length
    - (validTrades trades).length

/-- The console report of the stats block (lines 51–68). -/
structure Report where
  wins : ℕ
  total_pnl : ℚ
  reasons : List (String × ℕ)
  sample : List (String × ℚ × ℚ × ℚ × String)
deriving DecidableEq, Repr

def wins (ts : List TradeRecord) : ℕ :=
  (ts.filter (fun t => decide (t.pnl > 0))).length

def totalPnl (ts : List TradeRecord) : ℚ :=
  (ts.map (fun t => t.pnl)).sum

/-- The dict update `reasons[r] = reasons.get(r, 0) + 1` on a dict
kept as an insertion-ordered association list. -/
def bumpReason (acc : List (String × ℕ)) (r : String) : List (String × ℕ) :=
  if acc.any (fun p => p.1 = r) then
    acc.map (fun p => if p.1 = r then (p.1, p.2 + 1) else p)
  else acc ++ [(r, 1)]

def reasonBreakdown (ts : List TradeRecord) : List (String × ℕ) :=
  ts.foldl (fun acc t => bumpReason acc (t.reason.getD "unknown")) []

/-- One line of the sample print (line 68).  The reason field is read
by a mandatory lookup there, so a record without `reason` makes the
line fail (Python: `KeyError`). -/
def sampleLine (t : TradeRecord) : Option (String × ℚ × ℚ × ℚ × String) :=
  t.reason.map (fun r => (t.pair, t.entry, t.exit, t.pnl, r))

def sampleOf (ts : List TradeRecord) : Option (List (String × ℚ × ℚ × ℚ × String)) :=
  (ts.take 10).mapM sampleLine

/-- The stats block of lines 51–68: skipped entirely when
`valid_trades` is empty (`some none`); otherwise it computes the
report, failing (`none`) exactly when the sample print fails. -/
def reportStep (valid : List TradeRecord) : Option (Option Report) :=
  if valid.isEmpty then some none
  else
    (sampleOf valid).map (fun s =>
      some { wins := wins valid
             total_pnl := totalPnl valid
             reasons := reasonBreakdown valid
             sample := s })

/-- The in-memory run of the script after loading `trades`: the filter
loop, then the stats block, then `cleaned_data`.  A `KeyError` in the
stats block aborts before `cleaned_data` is built, hence the outer
`Option`. -/
def clean (trades : List TradeRecord) : Option (Option Report × CleanedData) :=
  (reportStep (validTrades trades)).map (fun rep => (rep, cleanedData trades))

/-- A plain valid trade, used as concrete input. -/
def rBTC : TradeRecord := ⟨"BTC", 1, 2, 5, some "manual"⟩

/-- A valid trade with no `reason` field, used as concrete input. -/
def rNoReason : TradeRecord := ⟨"BTC", 1, 2, 5, none⟩

/-- A no-op record (`entry == exit`), used as concrete input. -/
def rFake : TradeRecord := ⟨"BTC", 10, 10, 0, none⟩

/-- An outlier: `pnl = 50.00004`, so `abs(pnl) > 50` but
`round(pnl, 4) = 50.0000`; used as concrete input. -/
def rOutlier : TradeRecord := ⟨"ETH", 1, 2, mkRat 1250001 25000, none⟩

/-- A surviving trade with `pnl = 50` sharing the deduplication key of
`rOutlier`; used as concrete input. -/
def rFifty : TradeRecord := ⟨"ETH", 1, 2, 50, some "take_profit"⟩

theorem specDedupAux_congr (l : List TradeRecord) :
    ∀ s1 s2 : List Key, (∀ k, k ∈ s1 ↔ k ∈ s2) →
      specDedupAux l s1 = specDedupAux l s2 := by
  induction l with
  | nil => intro s1 s2 _; rfl
  | cons t ts ih =>
    intro s1 s2 h
    simp only [specDedupAux]
    by_cases hk : keyOf t ∈ s1
    · rw [if_pos hk, if_pos ((h _).mp hk)]
      exact ih _ _ (fun k => by simp only [List.mem_cons, h k])
    · rw [if_neg hk, if_neg (fun hx => hk ((h _).mpr hx))]
      exact congrArg _ (ih _ _ (fun k => by simp only [List.mem_cons, h k]))

theorem filterLoop_eq_specDedupAux (l : List TradeRecord) :
    ∀ seen, filterLoop l seen
      = specDedupAux (l.filter (fun t => decide (survives12 t))) seen := by
  induction l with
  | nil => intro _; rfl
  | cons t ts ih =>
    intro seen
    simp only [filterLoop, List.filter_cons]
    by_cases h1 : t.entry = t.exit
    · have hd : decide (survives12 t) = false := by
        simp [survives12, h1]
      rw [if_pos h1, hd]
      simpa using ih seen
    · by_cases h2 : rabs t.pnl > 50
      · have hd : decide (survives12 t) = false := by
          simp [survives12, not_le.mpr h2]
        rw [if_neg h1, if_pos h2, hd]
        simpa using ih seen
      · have hd : decide (survives12 t) = true := by
          simp [survives12, h1, not_lt.mp h2]
        rw [if_neg h1, if_neg h2, hd]
        simp only [if_true, specDedupAux]
        by_cases hk : keyOf t ∈ seen
        · rw [if_pos hk, if_pos hk, ih seen]
          refine specDedupAux_congr _ _ _ (fun k => ?_)
          constructor
          · exact fun hx => List.mem_cons_of_mem _ hx
          · intro hx
            rcases List.mem_cons.mp hx with he | hm
            · exact he ▸ hk
            · exact hm
        · rw [if_neg hk, if_neg hk]
          exact congrArg _ (ih _)

theorem specDedupAux_sublist (l : List TradeRecord) :
    ∀ seen, List.Sublist (specDedupAux l seen) l := by
  induction l with
  | nil => intro _; exact List.Sublist.refl []
  | cons t ts ih =>
    intro seen
    simp only [specDedupAux]
    by_cases hk : keyOf t ∈ seen
    · rw [if_pos hk]; exact (ih _).cons t
    · rw [if_neg hk]; exact (ih _).cons₂ t

theorem specDedupAux_keys (l : List TradeRecord) :
    ∀ seen, ((specDedupAux l seen).map keyOf).Nodup ∧
      ∀ k ∈ (specDedupAux l seen).map keyOf, k ∉ seen := by
  induction l with
  | nil => intro seen; exact ⟨List.nodup_nil, by simp [specDedupAux]⟩
  | cons t ts ih =>
    intro seen
    simp only [specDedupAux]
    by_cases hk : keyOf t ∈ seen
    · rw [if_pos hk]
      obtain ⟨hnd, hni⟩ := ih (keyOf t :: seen)
      exact ⟨hnd, fun k hkm hks => hni k hkm (List.mem_cons_of_mem _ hks)⟩
    · rw [if_neg hk]
      obtain ⟨hnd, hni⟩ := ih (keyOf t :: seen)
      constructor
      · simp only [List.map_cons, List.nodup_cons]
        exact ⟨fun hmem => hni _ hmem (List.mem_cons_self _ _), hnd⟩
      · intro k hkm hks
        simp only [List.map_cons, List.mem_cons] at hkm
        rcases hkm with rfl | hkm
        · exact hk hks
        · exact hni k hkm (List.mem_cons_of_mem _ hks)

theorem mem_filterLoop_survives {l : List TradeRecord} {seen : List Key}
    {t : TradeRecord} (h : t ∈ filterLoop l seen) : survives12 t := by
  rw [filterLoop_eq_specDedupAux] at h
  have hmem := (specDedupAux_sublist _ seen).subset h
  exact of_decide_eq_true (List.mem_filter.mp hmem).2

theorem filterLoop_fixed (l : List TradeRecord) :
    ∀ seen, (∀ t ∈ l, survives12 t) → ((l.map keyOf).Nodup) →
      (∀ t ∈ l, keyOf t ∉ seen) → filterLoop l seen = l := by
  induction l with
  | nil => intro _ _ _ _; rfl
  | cons t ts ih =>
    intro seen hs hnd hseen
    have hst := hs t (List.mem_cons_self t ts)
    simp only [List.map_cons, List.nodup_cons] at hnd
    simp only [filterLoop]
    rw [if_neg hst.1, if_neg (not_lt.mpr hst.2),
      if_neg (hseen t (List.mem_cons_self t ts))]
    congr 1
    apply ih _ (fun u hu => hs u (List.mem_cons_of_mem _ hu)) hnd.2
    intro u hu hmem
    rcases List.mem_cons.mp hmem with he | hm
    · exact hnd.1 (he ▸ List.mem_map_of_mem keyOf hu)
    · exact hseen u (List.mem_cons_of_mem _ hu) hm

theorem mem_filterLoop_append (t : TradeRecord) (post : List TradeRecord) :
    ∀ (pre : List TradeRecord) (seen : List Key), survives12 t →
      keyOf t ∉ seen → (∀ u ∈ pre, keyOf u = keyOf t → ¬ survives12 u) →
      t ∈ filterLoop (pre ++ t :: post) seen := by
  intro pre
  induction pre with
  | nil =>
    intro seen ht hseen _
    simp only [List.nil_append, filterLoop]
    rw [if_neg ht.1, if_neg (not_lt.mpr ht.2), if_neg hseen]
    exact List.mem_cons_self _ _
  | cons u pre ih =>
    intro seen ht hseen hpre
    have hpre' : ∀ v ∈ pre, keyOf v = keyOf t → ¬ survives12 v :=
      fun v hv => hpre v (List.mem_cons_of_mem _ hv)
    simp only [List.cons_append, filterLoop]
    by_cases h1 : u.entry = u.exit
    · rw [if_pos h1]; exact ih seen ht hseen hpre'
    · rw [if_neg h1]
      by_cases h2 : rabs u.pnl > 50
      · rw [if_pos h2]; exact ih seen ht hseen hpre'
      · rw [if_neg h2]
        have hu : survives12 u := ⟨h1, not_lt.mp h2⟩
        have hne : keyOf u ≠ keyOf t :=
          fun he => hpre u (List.mem_cons_self _ _) he hu
        by_cases hk : keyOf u ∈ seen
        · rw [if_pos hk]; exact ih seen ht hseen hpre'
        · rw [if_neg hk]
          refine List.mem_cons_of_mem u (ih (keyOf u :: seen) ht ?_ hpre')
          intro hmem
          rcases List.mem_cons.mp hmem with he | hm
          · exact hne he.symm
          · exact hseen hm

theorem filter_length_split (l : List TradeRecord) :
    (l.filter (fun t => decide (t.entry = t.exit))).length
      + (l.filter (fun t => decide (t.entry ≠ t.exit ∧ rabs t.pnl > 50))).length
      = l.countP (fun t => decide (t.entry = t.exit ∨ rabs t.pnl > 50)) := by
  induction l with
  | nil => rfl
  | cons t ts ih =>
    by_cases h1 : t.entry = t.exit
    · have e1 : decide (t.entry = t.exit) = true := by simp [h1]
      have e2 : decide (t.entry ≠ t.exit ∧ rabs t.pnl > 50) = false := by
        simp [h1]
      have e3 : decide (t.entry = t.exit ∨ rabs t.pnl > 50) = true := by
        simp [h1]
      rw [List.filter_cons, List.filter_cons, List.countP_cons,
        if_pos e1, if_neg (by simp [e2]), if_pos e3, List.length_cons]
      omega
    · by_cases h2 : rabs t.pnl > 50
      · have e1 : decide (t.entry = t.exit) = false := by simp [h1]
        have e2 : decide (t.entry ≠ t.exit ∧ rabs t.pnl > 50) = true := by
          simp [h1, h2]
        have e3 : decide (t.entry = t.exit ∨ rabs t.pnl > 50) = true := by
          simp [h1, h2]
        rw [List.filter_cons, List.filter_cons, List.countP_cons,
          if_neg (by simp [e1]), if_pos e2, if_pos e3, List.length_cons]
        omega
      · have e1 : decide (t.entry = t.exit) = false := by simp [h1]
        have e2 : decide (t.entry ≠ t.exit ∧ rabs t.pnl > 50) = false := by
          simp [h2]
        have e3 : decide (t.entry = t.exit ∨ rabs t.pnl > 50) = false := by
          simp [h1, h2]
        rw [List.filter_cons, List.filter_cons, List.countP_cons,
          if_neg (by simp [e1]), if_neg (by simp [e2]), if_neg (by simp [e3])]
        omega

/-- Claim C1: among the records surviving the no-op and outlier
filters, a record is kept in the output iff its key
`(pair, entry, exit, round(pnl, 4))` has not occurred on an earlier
surviving record: `valid_trades` is exactly the first-occurrence
deduplication (`specDedup`) of the survivor subsequence, and
consequently the key is unique across the output sequence. -/
theorem dedupKeyFirstOccurrence (trades : List TradeRecord) :
    validTrades trades
      = specDedup (trades.filter (fun t => decide (survives12 t))) ∧
    ((validTrades trades).map keyOf).Nodup := by
  constructor
  · exact filterLoop_eq_specDedupAux trades []
  · show ((filterLoop trades []).map keyOf).Nodup
    rw [filterLoop_eq_specDedupAux]
    exact (specDedupAux_keys _ []).1

/-- Claim C2 (code bug): the spec makes `reason` optional with default
value unknown, and the breakdown loop indeed uses a defaulted lookup,
but the sample print two lines later reads the reason field with a
mandatory lookup.  On an input whose single
surviving record lacks `reason`, the run aborts (Python `KeyError`,
modelled as `none`) instead of producing the report — even though the
reason breakdown itself would have counted that record under
"unknown". -/
theorem missingReasonAbortsScript :
    clean [rNoReason] = none ∧
    reasonBreakdown (validTrades [rNoReason]) = [("unknown", 1)] :=
  ⟨rfl, rfl⟩

/-- Claim C3: on the input `[rBTC, rBTC]` (a duplicate surviving
filters 1–2), `removed_fake_trades + removed_outliers + total_trades`
differs from `original_count`, falling short by exactly the number of
records dropped by the deduplication step (here 1). -/
theorem accountingGapOnDuplicates :
    (cleanedData [rBTC, rBTC]).removed_fake_trades
        + (cleanedData [rBTC, rBTC]).removed_outliers
        + (cleanedData [rBTC, rBTC]).total_trades
      ≠ (cleanedData [rBTC, rBTC]).original_count ∧
    (cleanedData [rBTC, rBTC]).removed_fake_trades
        + (cleanedData [rBTC, rBTC]).removed_outliers
        + (cleanedData [rBTC, rBTC]).total_trades
        + dedupDropped [rBTC, rBTC]
      = (cleanedData [rBTC, rBTC]).original_count ∧
    dedupDropped [rBTC, rBTC] = 1 := by
  decide

/-- Claim C4: the filter pipeline is idempotent — running the filter
loop on its own output removes nothing further. -/
theorem filterPipelineIdempotent (trades : List TradeRecord) :
    validTrades (validTrades trades) = validTrades trades := by
  show filterLoop (validTrades trades) [] = validTrades trades
  apply filterLoop_fixed
  · exact fun t ht => mem_filterLoop_survives ht
  · show ((filterLoop trades []).map keyOf).Nodup
    rw [filterLoop_eq_specDedupAux]
    exact (specDedupAux_keys _ []).1
  · exact fun t _ => List.not_mem_nil _

/-- Claim C5: `removed_fake_trades` counts the original records with
`entry == exit`, `removed_outliers` counts the original records with
`entry != exit` and `abs(pnl) > 50`, and the two counts together count
each original record failing either filter exactly once — so a record
with `entry == exit` is never also counted as an outlier even when
`abs(pnl) > 50`. -/
theorem removedCountsOverOriginal (trades : List TradeRecord) :
    (cleanedData trades).removed_fake_trades
      = trades.countP (fun t => decide (t.entry = t.exit)) ∧
    (cleanedData trades).removed_outliers
      = trades.countP (fun t => decide (t.entry ≠ t.exit ∧ rabs t.pnl > 50)) ∧
    (cleanedData trades).removed_fake_trades
        + (cleanedData trades).removed_outliers
      = trades.countP (fun t => decide (t.entry = t.exit ∨ rabs t.pnl > 50)) := by
  refine ⟨?_, ?_, ?_⟩
  · exact (List.countP_eq_length_filter _ _).symm
  · exact (List.countP_eq_length_filter _ _).symm
  · exact filter_length_split trades

/-- Claim C6: every record in the output trades sequence satisfies
both `entry != exit` and `abs(pnl) <= 50`; the witness keeps a record
with `abs(pnl)` exactly 50. -/
theorem outputRecordsPassFilters (trades : List TradeRecord)
    (t : TradeRecord) (h : t ∈ (cleanedData trades).trades) :
    t.entry ≠ t.exit ∧ rabs t.pnl ≤ 50 :=
  mem_filterLoop_survives h

theorem outputRecordsPassFilters_witness :
    rFifty ∈ (cleanedData [rFifty]).trades ∧ rabs rFifty.pnl = 50 ∧
    (rFifty.entry ≠ rFifty.exit ∧ rabs rFifty.pnl ≤ 50) :=
  ⟨by decide, by decide, outputRecordsPassFilters [rFifty] rFifty (by decide)⟩

/-- Claim C7: the output trades sequence is a subsequence of the input
sequence — surviving records are unmodified and keep their relative
order. -/
theorem outputIsSubsequence (trades : List TradeRecord) :
    List.Sublist (cleanedData trades).trades trades := by
  show List.Sublist (filterLoop trades []) trades
  rw [filterLoop_eq_specDedupAux]
  exact (specDedupAux_sublist _ _).trans (List.filter_sublist _)

/-- Claim C8: when the filtered result is empty, the stats block is
skipped (no win-rate or average is computed, so no division by zero
can occur) and the cleaned output is still produced with
`total_trades = 0` and an empty trades sequence. -/
theorem emptyResultSkipsReport (trades : List TradeRecord)
    (h : validTrades trades = []) :
    clean trades = some (none, cleanedData trades) ∧
    (cleanedData trades).total_trades = 0 ∧
    (cleanedData trades).trades = [] := by
  refine ⟨?_, ?_, ?_⟩
  · simp [clean, reportStep, h]
  · show (validTrades trades).length = 0
    rw [h]
    rfl
  · exact h

theorem emptyResultSkipsReport_witness :
    validTrades [rFake] = [] ∧
    (clean [rFake] = some (none, cleanedData [rFake]) ∧
      (cleanedData [rFake]).total_trades = 0 ∧
      (cleanedData [rFake]).trades = []) :=
  ⟨by decide, emptyResultSkipsReport [rFake] (by decide)⟩

/-- Claim C9: `total_trades` in the output metadata equals the length
of the output trades sequence. -/
theorem totalTradesMatchesLength (trades : List TradeRecord) :
    (cleanedData trades).total_trades = (cleanedData trades).trades.length :=
  rfl

/-- Claim C10: records discarded by the no-op or outlier filter never
enter the `seen` key set, so a surviving record whose key matches only
earlier discarded records is kept; the witness matches an outlier with
`pnl = 50.00004` against a kept record with `pnl = 50`, whose keys
agree after rounding to 4 decimal places. -/
theorem discardedRecordsConsumeNoKey (pre post : List TradeRecord)
    (t : TradeRecord) (ht : survives12 t)
    (hpre : ∀ u ∈ pre, keyOf u = keyOf t → ¬ survives12 u) :
    t ∈ validTrades (pre ++ t :: post) :=
  mem_filterLoop_append t post pre [] ht (List.not_mem_nil _) hpre

theorem discardedRecordsConsumeNoKey_witness :
    survives12 rFifty ∧ ¬ survives12 rOutlier ∧
    keyOf rOutlier = keyOf rFifty ∧
    rFifty ∈ validTrades [rOutlier, rFifty] :=
  ⟨by decide, by decide, by decide,
    discardedRecordsConsumeNoKey [rOutlier] [] rFifty (by decide) (by decide)⟩

end CleanTradeLog
